import Mathlib

/-!
Shallow embedding of the snoopy interest-profiling pipeline
(`browser_snoop.py`, `file_snoop.py`, `__main__.py`) and proofs about it.

Modelling conventions:
* Python floats are modelled as exact rationals (`ℚ`); the spec's
  "within floating tolerance" equalities become exact rational equalities.
* Python dicts keyed by strings are modelled as association lists
  `List (String × _)` with first-occurrence lookup (dict keys are unique
  by construction, so first-occurrence lookup coincides with dict lookup).
* pandas DataFrames are modelled as lists of records, and operations on a
  single column as operations on the corresponding list of field values.
-/

/-- Boolean leading-run test on character lists: does the second list
start with the first? -/
def leadingChars : List Char → List Char → Bool
  | [], _ => true
  | _ :: _, [] => false
  | a :: as, b :: bs => a == b && leadingChars as bs

/-- Boolean contiguous-substring test on character lists. -/
def substrChars (sub : List Char) : List Char → Bool
  | [] => leadingChars sub []
  | b :: bs => leadingChars sub (b :: bs) || substrChars sub bs

/-- Embeds Python's `keyword in url_lower` substring containment test. -/
def strContains (s sub : String) : Bool :=
  substrChars sub.toList s.toList

/-- ASCII lowercasing of one character. -/
def lowerChar (ch : Char) : Char :=
  if 'A' ≤ ch ∧ ch ≤ 'Z' then Char.ofNat (ch.toNat + 32) else ch

/-- Embeds Python's `url.lower()` (ASCII lowercasing; URLs under study
are ASCII). -/
def lowerStr (s : String) : String :=
  String.mk (s.toList.map lowerChar)

/-- First-occurrence lookup in an association list of rational scores,
defaulting to 0; embeds Python's `d.get(key, 0)`. -/
def getQ : List (String × ℚ) → String → ℚ
  | [], _ => 0
  | (k, v) :: rest, c => if k = c then v else getQ rest c

/-- First-occurrence optional lookup in an association list of rational
scores; embeds Python's `key in d` / `d[key]`. -/
def lookupQ : List (String × ℚ) → String → Option ℚ
  | [], _ => none
  | (k, v) :: rest, c => if k = c then some v else lookupQ rest c

/-- First-occurrence lookup in an association list of counters, defaulting
to 0. -/
def getCount : List (String × Nat) → String → Nat
  | [], _ => 0
  | (k, v) :: rest, c => if k = c then v else getCount rest c

/-- Key list of an association list of counters. -/
def keysOf (sc : List (String × Nat)) : List String :=
  sc.map Prod.fst

/-- Sum of the values of a score map; embeds `sum(d.values())`. -/
def sumValues (m : List (String × ℚ)) : ℚ :=
  (m.map Prod.snd).sum

/-! ## Browser interest scorer (`UserProfiler.determine_interests`) -/

/-- Embeds `any(keyword in url_lower for keyword in keywords)` from
`determine_interests` (the URL is lowercased by the caller of this test). -/
def urlMatches (keywords : List String) (url : String) : Bool :=
  keywords.any (fun k => strContains (lowerStr url) k)

/-- Embeds `interest_scores[category] += 1`: bump the (unique) entry for
key `c`, leaving the rest of the dict unchanged. -/
def bumpKey : List (String × Nat) → String → List (String × Nat)
  | [], _ => []
  | (k, v) :: rest, c =>
      if k = c then (k, v + 1) :: rest else (k, v) :: bumpKey rest c

/-- Embeds the inner loop of `determine_interests`: for one URL, iterate
over every category and increment its counter when a keyword matches. -/
def processUrl (sc : List (String × Nat)) (cats : List (String × List String))
    (url : String) : List (String × Nat) :=
  cats.foldl (fun acc p => if urlMatches p.2 url then bumpKey acc p.1 else acc) sc

/-- Embeds `{category: 0 for category in self.interest_categories}`. -/
def initScores (cats : List (String × List String)) : List (String × Nat) :=
  cats.map (fun p => (p.1, 0))

/-- Raw per-category match counters after the URL loop of
`determine_interests`. -/
def rawCounts (cats : List (String × List String)) (urls : List String) :
    List (String × Nat) :=
  urls.foldl (fun sc url => processUrl sc cats url) (initScores cats)

/-- Embeds `UserProfiler.determine_interests`: accumulate per-category
keyword-match counters over all URLs, then normalize by the *sum of the
counters* when that sum is positive. -/
def determineInterests (cats : List (String × List String)) (urls : List String) :
    List (String × ℚ) :=
  let raw := rawCounts cats urls
  let total := (raw.map Prod.snd).sum
  if 0 < total then raw.map (fun p => (p.1, (p.2 : ℚ) / (total : ℚ)))
  else raw.map (fun p => (p.1, (p.2 : ℚ)))

/-! ## Browser temporal analysis (`UserProfiler.analyze_time_patterns`) -/

/-- Embeds `df['hour'].value_counts()`: the list of distinct hour values
paired with their frequencies (frequency order is irrelevant to the code
under study, which only filters and counts this series). -/
def valueCounts (hours : List Nat) : List (Nat × Nat) :=
  hours.dedup.map (fun h => (h, hours.count h))

/-- Embeds the `user_type` field computed by `analyze_time_patterns`.
Note the source applies `Series.between(lo, hi)` to `hour_counts`, whose
*values are frequencies*, so the test `hour_counts.between(5, 9)` selects
distinct hours whose frequency lies in `[5, 9]`, and `between(22, 4)`
(with lower bound above upper bound) selects nothing. -/
def userType (hours : List Nat) : List String :=
  let hc := valueCounts hours
  let earlyCount := (hc.filter (fun p => decide (5 ≤ p.2) && decide (p.2 ≤ 9))).length
  let nightCount := (hc.filter (fun p => decide (22 ≤ p.2) && decide (p.2 ≤ 4))).length
  (if (earlyCount : ℚ) > (hours.length : ℚ) * (3 / 10) then ["Early Bird"] else []) ++
    (if (nightCount : ℚ) > (hours.length : ℚ) * (3 / 10) then ["Night Owl"] else [])

/-! ## Browser personality insights
(`UserProfiler._generate_personality_insights`, `traits` field) -/

/-- Embeds the `traits` list of `_generate_personality_insights`:
`technology > 0.3`, `academic > 0.2`, `entertainment > 0.3`. -/
def personalityTraits (interests : List (String × ℚ)) : List String :=
  (if getQ interests "technology" > 3 / 10 then ["Technically Inclined"] else []) ++
    (if getQ interests "academic" > 2 / 10 then ["Intellectual Curious"] else []) ++
      (if getQ interests "entertainment" > 3 / 10 then ["Entertainment-Focused"] else [])

/-! ## File interest scorer (`FileProfiler`) -/

/-- A collected file record, reduced to the fields the scorer reads
(`extension`, already lowercased at collection time). -/
structure FileRec where
  ext : String
deriving DecidableEq, Repr

/-- The category → extension-set map hardcoded in `FileProfiler.__init__`. -/
def fileCategories : List (String × List String) :=
  [("development", [".py", ".js", ".java", ".cpp", ".h", ".cs", ".php", ".rb"]),
   ("documents", [".pdf", ".doc", ".docx", ".txt", ".md", ".csv", ".xlsx"]),
   ("media", [".jpg", ".png", ".mp4", ".mp3", ".wav", ".avi", ".mov"]),
   ("design", [".psd", ".ai", ".fig", ".sketch", ".xd"]),
   ("data_science", [".ipynb", ".r", ".mat", ".json", ".yaml"])]

/-- Embeds `len(df[df['extension'].isin(extensions)])`: the number of
records whose extension is in the category's extension set. -/
def extCount (exts : List String) (df : List FileRec) : Nat :=
  (df.filter (fun r => decide (r.ext ∈ exts))).length

/-- Embeds `FileProfiler.determine_user_interests`: each category's score
is its extension-match count divided by the *total number of records*
(`total_files`), or 0 when no records were collected. -/
def determineUserInterests (df : List FileRec) : List (String × ℚ) :=
  fileCategories.map (fun p =>
    (p.1, if 0 < df.length then (extCount p.2 df : ℚ) / (df.length : ℚ) else 0))

/-! ## Profile combination (`__main__.py`) -/

/-- The union of the two score maps' key sets
(`set(browser_interests.keys()) | set(file_interests.keys())`); iteration
order of the Python set is irrelevant to every property proved below. -/
def keysU (b f : List (String × ℚ)) : List String :=
  (b.map Prod.fst ++ f.map Prod.fst).dedup

/-- Embeds `_merge_interests`: for every category in the key union,
`browser_score * 0.6 + file_score * 0.4`, a missing category scoring 0. -/
def mergeInterests (b f : List (String × ℚ)) : List (String × ℚ) :=
  (keysU b f).map (fun c => (c, getQ b c * (6 / 10) + getQ f c * (4 / 10)))

/-- Embeds the per-source `primary_categories` lists of
`_analyze_combined_patterns`: categories with score above 0.2. -/
def primaryCats (m : List (String × ℚ)) : List String :=
  (m.filter (fun p => decide (p.2 > 2 / 10))).map Prod.fst

/-! ## Browser history collection (`UserProfiler.get_browser_tabs`,
`UserProfiler.generate_user_profile`)

The external `browser_history` library either raises (source unreachable)
or returns a list of `(timestamp, url)` rows; both outcomes are the
collector's input, modelled as an `Except`. Timestamps are modelled as
epoch seconds; the locally-derived `hour` field becomes epoch arithmetic. -/

/-- A raw history row handed over by the external history source. -/
structure HistoryRow where
  timestamp : Nat
  url : String
deriving DecidableEq, Repr

/-- A `BrowsingRecord` after the derived columns of `get_browser_tabs`
are added. -/
structure BrowsingRecord where
  timestamp : Nat
  url : String
  domain : String
  hour : Nat
deriving DecidableEq, Repr

/-- Embeds `urlparse(x).netloc`: the authority component between the
scheme separator and the next slash (empty when there is no scheme). -/
def netlocOf (url : String) : String :=
  match url.splitOn "://" with
  | _ :: rest :: _ => ((rest.splitOn "/").headD "")
  | _ => ""

/-- Embeds `x.hour` on an epoch-seconds timestamp. -/
def hourOf (t : Nat) : Nat :=
  t / 3600 % 24

/-- Derived-column construction of `get_browser_tabs`. -/
def toRecord (r : HistoryRow) : BrowsingRecord :=
  { timestamp := r.timestamp, url := r.url, domain := netlocOf r.url,
    hour := hourOf r.timestamp }

/-- One step of a stable descending insertion sort by timestamp. -/
def insertDesc (r : HistoryRow) : List HistoryRow → List HistoryRow
  | [] => [r]
  | x :: xs => if x.timestamp ≤ r.timestamp then r :: x :: xs
               else x :: insertDesc r xs

/-- Embeds `df.sort_values('timestamp', ascending=False)`. -/
def sortDesc (rows : List HistoryRow) : List HistoryRow :=
  rows.foldr insertDesc []

/-- Embeds `UserProfiler.get_browser_tabs`: on any exception from the
history source, or on an empty history, return the empty collection;
otherwise derive columns, sort most-recent-first and truncate to the
history limit. -/
def getBrowserTabs (limit : Nat) (src : Except String (List HistoryRow)) :
    List BrowsingRecord :=
  match src with
  | .error _ => []
  | .ok rows =>
      if rows.isEmpty then []
      else ((sortDesc rows).take limit).map toRecord

/-- Result of `generate_user_profile`: either the error dict
`{"error": ...}` or a profile carrying the analyses that the claims under
study read (the NLTK-based content-pattern analysis is an external
collaborator and is not part of this embedding). -/
inductive ProfileResult where
  | err (msg : String)
  | profile (interests : List (String × ℚ)) (user_type : List String)
      (traits : List String) (totalUrls : Nat)
deriving DecidableEq, Repr

/-- Embeds `UserProfiler.generate_user_profile`: empty collection ⇒ the
explicit no-data marker; otherwise run the analyses over the records. -/
def generateUserProfile (cats : List (String × List String)) (limit : Nat)
    (src : Except String (List HistoryRow)) : ProfileResult :=
  let df := getBrowserTabs limit src
  if df.isEmpty then .err "No browser history available"
  else
    let interests := determineInterests cats (df.map BrowsingRecord.url)
    .profile interests (userType (df.map BrowsingRecord.hour))
      (personalityTraits interests) df.length

/-- Embeds `browser_profile.get('interests', {})`: the error dict has no
`interests` key, so it contributes the empty map. -/
def interestsOf : ProfileResult → List (String × ℚ)
  | .err _ => []
  | .profile i _ _ _ => i

/-- Embeds `file_profile.get('interests', {})` given the scanned records:
`FileProfiler.generate_profile` returns an error dict when the scan is
empty, so an empty scan contributes the empty map. -/
def fileProfileInterests (df : List FileRec) : List (String × ℚ) :=
  if df.isEmpty then [] else determineUserInterests df

/-- The `combined_insights` fields of `generate_complete_profile` that the
claims under study read. -/
structure CombinedInsights where
  interests : List (String × ℚ)
  primaryBrowser : List String
  primaryFiles : List String
deriving DecidableEq, Repr

/-- Embeds the `combined_insights` assembly of `generate_complete_profile`:
merge the two interest maps and list each source's primary categories. -/
def combinedInsights (cats : List (String × List String)) (limit : Nat)
    (src : Except String (List HistoryRow)) (fdf : List FileRec) :
    CombinedInsights :=
  let bi := interestsOf (generateUserProfile cats limit src)
  let fi := fileProfileInterests fdf
  { interests := mergeInterests bi fi,
    primaryBrowser := primaryCats bi,
    primaryFiles := primaryCats fi }

/-! ## Filesystem scan (`FileProfiler.scan_files`)

The filesystem is modelled as a forest of named entries; a scan root is a
path prefix (the root's own path segments) together with the root
directory's children. `os.walk` is modelled top-down; the bounded worker
pool only orders completions within one directory's batch, which the
membership properties below never depend on, so a batch is modelled as the
directory's file list in name order. Per-file failures (`process_file`
returning `None`) are modelled by the predicate `ok`. -/

/-- A filesystem entry: a plain file or a directory with children. -/
inductive Entry where
  | file (name : String)
  | dir (name : String) (children : List Entry)

/-- A path, as its list of segments. -/
abbrev FsPath := List String

/-- The full paths of the plain files directly inside a directory whose
path is `pref` — one `os.walk` batch. -/
def filesIn (pref : FsPath) (ch : List Entry) : List FsPath :=
  ch.filterMap (fun e => match e with
    | .file n => some (pref ++ [n])
    | .dir _ _ => none)

/-- The `os.walk` batches below a directory at path `pref` with children
`es`, in top-down order, with `dirs[:] = [d for d in dirs if d not in
self.excluded_dirs]` pruning every subdirectory whose *name* is in `ex`
before descending. The starting directory's own batch is not included
(and is never subject to pruning, matching `os.walk(root_path)`). -/
def walkList (ex : List String) (pref : FsPath) : List Entry → List (List FsPath)
  | [] => []
  | .file _ :: es => walkList ex pref es
  | .dir n ch :: es =>
      (if n ∈ ex then []
       else filesIn (pref ++ [n]) ch :: walkList ex (pref ++ [n]) ch)
        ++ walkList ex pref es

/-- All `os.walk` batches for one scan root (the root's own batch first). -/
def walkRoot (ex : List String) (r : FsPath × List Entry) : List (List FsPath) :=
  filesIn r.1 r.2 :: walkList ex r.1 r.2

/-- Embeds the `for result in results` loop of `scan_files` over one
directory's batch: append each successfully processed file, and break as
soon as the running count reaches the file limit. -/
def runBatch (ok : FsPath → Bool) (limit : Nat) :
    List FsPath → List FsPath → Nat → List FsPath × Nat
  | [], acc, count => (acc, count)
  | p :: ps, acc, count =>
      let acc' := if ok p then acc ++ [p] else acc
      let count' := if ok p then count + 1 else count
      if limit ≤ count' then (acc', count') else runBatch ok limit ps acc' count'

/-- Embeds the `for root, dirs, files in os.walk(root_path)` loop: process
each directory's batch in order, and break out of the walk once the file
limit is reached. -/
def runWalk (ok : FsPath → Bool) (limit : Nat) :
    List (List FsPath) → List FsPath → Nat → List FsPath × Nat
  | [], acc, count => (acc, count)
  | b :: bs, acc, count =>
      let st := runBatch ok limit b acc count
      if limit ≤ st.2 then st else runWalk ok limit bs st.1 st.2

/-- Embeds `FileProfiler.scan_files`: walk every scan root in order
(reaching the limit breaks the current root's walk but, as in the source,
does not skip the remaining roots), accumulating processed file records. -/
def scanFiles (ok : FsPath → Bool) (ex : List String) (limit : Nat)
    (roots : List (FsPath × List Entry)) : List FsPath :=
  (roots.foldl (fun st r => runWalk ok limit (walkRoot ex r) st.1 st.2)
    (([] : List FsPath), 0)).1

/-! ## Helper lemmas -/

theorem sumValues_cons (a : String × ℚ) (m : List (String × ℚ)) :
    sumValues (a :: m) = a.2 + sumValues m := by
  simp [sumValues]

theorem sumValues_browser_div (raw : List (String × Nat)) (c : ℚ) :
    sumValues (raw.map fun p => (p.1, (p.2 : ℚ) / c)) =
      ((raw.map Prod.snd).sum : ℚ) / c := by
  induction raw with
  | nil => simp [sumValues]
  | cons a t ih =>
      rw [List.map_cons, sumValues_cons, ih, List.map_cons, List.sum_cons]
      push_cast
      rw [add_div]

theorem sumValues_browser_cast (raw : List (String × Nat)) :
    sumValues (raw.map fun p => (p.1, (p.2 : ℚ))) =
      ((raw.map Prod.snd).sum : ℚ) := by
  induction raw with
  | nil => simp [sumValues]
  | cons a t ih =>
      rw [List.map_cons, sumValues_cons, ih, List.map_cons, List.sum_cons]
      push_cast
      ring

theorem sumValues_file_div (cats : List (String × List String))
    (df : List FileRec) (c : ℚ) :
    sumValues (cats.map fun p => (p.1, (extCount p.2 df : ℚ) / c)) =
      ((cats.map fun p => (extCount p.2 df : ℚ)).sum) / c := by
  induction cats with
  | nil => simp [sumValues]
  | cons a t ih =>
      rw [List.map_cons, sumValues_cons, ih, List.map_cons, List.sum_cons, add_div]

theorem lookupQ_map_assoc (cats : List (String × List String))
    (g : String × List String → ℚ) (c : String) (exts : List String)
    (hnd : (cats.map Prod.fst).Nodup) (hm : (c, exts) ∈ cats) :
    lookupQ (cats.map fun p => (p.1, g p)) c = some (g (c, exts)) := by
  induction cats with
  | nil => cases hm
  | cons a t ih =>
      rw [List.map_cons] at hnd
      rw [List.map_cons]
      rcases List.mem_cons.mp hm with heq | hmem
      · subst heq
        simp [lookupQ]
      · have hane : a.1 ≠ c := by
          intro h
          exact (List.nodup_cons.mp hnd).1 (h ▸ (List.mem_map.mpr ⟨_, hmem, rfl⟩))
        simp only [lookupQ, if_neg hane]
        exact ih (List.nodup_cons.mp hnd).2 hmem

theorem lookupQ_map_keys (l : List String) (g : String → ℚ) (c : String) :
    lookupQ (l.map fun a => (a, g a)) c = if c ∈ l then some (g c) else none := by
  induction l with
  | nil => simp [lookupQ]
  | cons a t ih =>
      by_cases h : a = c
      · subst h
        simp [lookupQ]
      · rw [List.map_cons]
        simp only [lookupQ, if_neg h, ih]
        by_cases hc : c ∈ t
        · rw [if_pos hc, if_pos (List.mem_cons_of_mem a hc)]
        · rw [if_neg hc, if_neg (fun hmem => by
            rcases List.mem_cons.mp hmem with h1 | h2
            · exact h h1.symm
            · exact hc h2)]

/-! ## Claim theorems -/

/-- Claim C1, counterexample to the claim as stated: the file scorer's
distribution for the two-record collection `[.py, .xyz]` sums to 1/2,
which is neither 0 nor 1 — normalization there does not divide by the sum
of the counters. -/
theorem claim_C1_counterexample :
    sumValues (determineUserInterests [⟨".py"⟩, ⟨".xyz"⟩]) ≠ 0 ∧
      sumValues (determineUserInterests [⟨".py"⟩, ⟨".xyz"⟩]) ≠ 1 := by
  have h : sumValues (determineUserInterests [⟨".py"⟩, ⟨".xyz"⟩]) = 1 / 2 := by
    simp +decide [determineUserInterests, fileCategories, extCount, sumValues]
  rw [h]
  norm_num

/-- Claim C1 as amended: the browser scorer (`determine_interests`)
normalizes by the sum of the counters, so its distribution sums to 0 or
exactly 1; the file scorer (`determine_user_interests`) instead divides
every counter by the number of records, so for a non-empty collection its
values sum to (sum of per-category match counts) / (record count), which
need not be 0 or 1. -/
theorem claim_C1 :
    (∀ (cats : List (String × List String)) (urls : List String),
      sumValues (determineInterests cats urls) = 0 ∨
        sumValues (determineInterests cats urls) = 1) ∧
    (∀ df : List FileRec, df ≠ [] →
      sumValues (determineUserInterests df) =
        ((fileCategories.map fun p => (extCount p.2 df : ℚ)).sum) /
          (df.length : ℚ)) := by
  constructor
  · intro cats urls
    unfold determineInterests
    by_cases h : 0 < ((rawCounts cats urls).map Prod.snd).sum
    · right
      rw [if_pos h, sumValues_browser_div, div_self]
      exact_mod_cast h.ne'
    · left
      rw [if_neg h, sumValues_browser_cast]
      have h0 : ((rawCounts cats urls).map Prod.snd).sum = 0 := by omega
      rw [h0]
      norm_num
  · intro df hdf
    have hlen : 0 < df.length := List.length_pos.mpr hdf
    unfold determineUserInterests
    simp only [if_pos hlen]
    exact sumValues_file_div fileCategories df (df.length : ℚ)

/-- Claim C1 witness: concrete instance of the amended file-scorer part at
the one-record collection `[.py]`. -/
theorem claim_C1_witness :
    sumValues (determineUserInterests [⟨".py"⟩]) =
      ((fileCategories.map fun p =>
          (extCount p.2 [(⟨".py"⟩ : FileRec)] : ℚ)).sum) /
        (([(⟨".py"⟩ : FileRec)].length : ℚ)) :=
  claim_C1.2 [⟨".py"⟩] (by decide)

/-- Claim C10: the file scorer's score for a category is the number of
records whose extension lies in that category's extension set divided by
the total record count, hence every score lies in [0, 1]. -/
theorem claim_C10 :
    ∀ (df : List FileRec) (c : String) (exts : List String), df ≠ [] →
      (c, exts) ∈ fileCategories →
      lookupQ (determineUserInterests df) c =
          some ((extCount exts df : ℚ) / (df.length : ℚ)) ∧
        0 ≤ (extCount exts df : ℚ) / (df.length : ℚ) ∧
          (extCount exts df : ℚ) / (df.length : ℚ) ≤ 1 := by
  intro df c exts hdf hm
  have hlen : 0 < df.length := List.length_pos.mpr hdf
  have hlenq : (0 : ℚ) < (df.length : ℚ) := by exact_mod_cast hlen
  have hdu : determineUserInterests df =
      fileCategories.map (fun p => (p.1, (extCount p.2 df : ℚ) / (df.length : ℚ))) := by
    unfold determineUserInterests
    simp only [if_pos hlen]
  have hnd : (fileCategories.map Prod.fst).Nodup := by decide
  refine ⟨?_, ?_, ?_⟩
  · rw [hdu]
    exact lookupQ_map_assoc fileCategories
      (fun p => (extCount p.2 df : ℚ) / (df.length : ℚ)) c exts hnd hm
  · positivity
  · rw [div_le_one hlenq]
    have hle : extCount exts df ≤ df.length := List.length_filter_le _ df
    exact_mod_cast hle

/-- Claim C10 witness: a single `.py` record scores 1/1 for
`development`. -/
theorem claim_C10_witness :
    lookupQ (determineUserInterests [⟨".py"⟩]) "development" =
        some ((extCount [".py", ".js", ".java", ".cpp", ".h", ".cs", ".php", ".rb"]
            [(⟨".py"⟩ : FileRec)] : ℚ) / (([(⟨".py"⟩ : FileRec)].length : ℚ))) ∧
      0 ≤ (extCount [".py", ".js", ".java", ".cpp", ".h", ".cs", ".php", ".rb"]
            [(⟨".py"⟩ : FileRec)] : ℚ) / (([(⟨".py"⟩ : FileRec)].length : ℚ)) ∧
        (extCount [".py", ".js", ".java", ".cpp", ".h", ".cs", ".php", ".rb"]
            [(⟨".py"⟩ : FileRec)] : ℚ) / (([(⟨".py"⟩ : FileRec)].length : ℚ)) ≤ 1 :=
  claim_C10 [⟨".py"⟩] "development"
    [".py", ".js", ".java", ".cpp", ".h", ".cs", ".php", ".rb"]
    (by decide) (by decide)

/-- Claim C2: for every category in the union of the two sources' key
sets, the merged score is `browser * 0.6 + file * 0.4`, a missing source
contributing 0 (witness instantiates browser 0.5 / file 0.25 ↦ 0.40). -/
theorem claim_C2 :
    ∀ (b f : List (String × ℚ)) (c : String),
      c ∈ b.map Prod.fst ∨ c ∈ f.map Prod.fst →
      lookupQ (mergeInterests b f) c =
        some (getQ b c * (6 / 10) + getQ f c * (4 / 10)) := by
  intro b f c hc
  have hmem : c ∈ keysU b f := by
    rw [keysU, List.mem_dedup, List.mem_append]
    exact hc
  have h := lookupQ_map_keys (keysU b f)
    (fun a => getQ b a * (6 / 10) + getQ f a * (4 / 10)) c
  rw [if_pos hmem] at h
  exact h

/-- Claim C2 witness: browser score 0.5 and file score 0.25 merge to
exactly 0.40 (= 2/5). -/
theorem claim_C2_witness :
    lookupQ (mergeInterests [("development", (1 : ℚ) / 2)]
        [("development", (1 : ℚ) / 4)]) "development" = some ((2 : ℚ) / 5) := by
  have h := claim_C2 [("development", (1 : ℚ) / 2)] [("development", (1 : ℚ) / 4)]
    "development" (Or.inl (by simp))
  rw [h]
  norm_num [getQ]

/-- Claim C7: a category absent from both sources' score maps does not
appear in the merged output at all. -/
theorem claim_C7 :
    ∀ (b f : List (String × ℚ)) (c : String),
      c ∉ b.map Prod.fst → c ∉ f.map Prod.fst →
      lookupQ (mergeInterests b f) c = none := by
  intro b f c hb hf
  have hmem : c ∉ keysU b f := by
    rw [keysU, List.mem_dedup, List.mem_append]
    rintro (h | h)
    · exact hb h
    · exact hf h
  have h := lookupQ_map_keys (keysU b f)
    (fun a => getQ b a * (6 / 10) + getQ f a * (4 / 10)) c
  rw [if_neg hmem] at h
  exact h

/-- Claim C7 witness: `media`, absent from both inputs, is absent from the
merged map. -/
theorem claim_C7_witness :
    lookupQ (mergeInterests [("development", (1 : ℚ))] []) "media" = none :=
  claim_C7 [("development", (1 : ℚ))] [] "media" (by simp) (by simp)

/-- Claim C4, counterexample to the claim as stated: with `academic`
scoring 0.25 the code emits `Intellectual Curious` although 0.25 does not
exceed the claimed 0.3 trait floor — the `academic` rule uses 0.2. -/
theorem claim_C4_counterexample :
    "Intellectual Curious" ∈ personalityTraits [("academic", (1 : ℚ) / 4)] ∧
      ¬((1 : ℚ) / 4 > 3 / 10) := by
  constructor
  · have h : personalityTraits [("academic", (1 : ℚ) / 4)] =
        ["Intellectual Curious"] := by
      simp +decide [personalityTraits, getQ]
      norm_num
    rw [h]
    exact List.mem_singleton.mpr rfl
  · norm_num

/-- Claim C4 as amended: `Technically Inclined` and `Entertainment-Focused`
are emitted iff the corresponding score exceeds 0.3, while `Intellectual
Curious` is emitted iff the `academic` score exceeds 0.2. -/
theorem claim_C4 :
    ∀ interests : List (String × ℚ),
      ("Technically Inclined" ∈ personalityTraits interests ↔
          getQ interests "technology" > 3 / 10) ∧
        ("Intellectual Curious" ∈ personalityTraits interests ↔
            getQ interests "academic" > 2 / 10) ∧
          ("Entertainment-Focused" ∈ personalityTraits interests ↔
              getQ interests "entertainment" > 3 / 10) := by
  intro i
  unfold personalityTraits
  split_ifs with h1 h2 h3 <;> simp_all

/-- Claim C3: supporting theorem for the code defect. In a collection of
ten records all carrying hour 7, every record's hour lies in the
early-bird window 5–9 (so the spec's rule demands the `Early Bird` label),
and in a collection of ten records all carrying hour 23 every hour lies in
the night-owl window 22–4; yet `analyze_time_patterns` emits no label in
either case: it applies `Series.between` to the hour *frequencies* (here
the single frequency 10, outside `[5, 9]` and outside the empty interval
`[22, 4]`), not to the hours. -/
theorem claim_C3_bug :
    userType (List.replicate 10 7) = [] ∧
      (List.replicate 10 7).countP (fun h => decide (5 ≤ h) && decide (h ≤ 9)) = 10 ∧
      userType (List.replicate 10 23) = [] ∧
      (List.replicate 10 23).countP (fun h => decide (22 ≤ h) || decide (h ≤ 4)) = 10 := by
  refine ⟨?_, by decide, ?_, by decide⟩
  · have hvc : valueCounts (List.replicate 10 7) = [(7, 10)] := by decide
    unfold userType
    rw [hvc]
    norm_num
  · have hvc : valueCounts (List.replicate 10 23) = [(23, 10)] := by decide
    unfold userType
    rw [hvc]
    norm_num

theorem keysOf_bumpKey (sc : List (String × Nat)) (c : String) :
    keysOf (bumpKey sc c) = keysOf sc := by
  induction sc with
  | nil => rfl
  | cons a t ih =>
      rcases a with ⟨k, v⟩
      by_cases h : k = c
      · simp only [bumpKey, if_pos h]
        rfl
      · simp only [bumpKey, if_neg h]
        show k :: keysOf (bumpKey t c) = k :: keysOf t
        rw [ih]

theorem getCount_bumpKey_self (sc : List (String × Nat)) (c : String)
    (h : c ∈ keysOf sc) : getCount (bumpKey sc c) c = getCount sc c + 1 := by
  induction sc with
  | nil => simp [keysOf] at h
  | cons a t ih =>
      rcases a with ⟨k, v⟩
      by_cases hk : k = c
      · subst hk
        simp [bumpKey, getCount]
      · have hmem : c ∈ k :: keysOf t := h
        have ht : c ∈ keysOf t := by
          rcases List.mem_cons.mp hmem with h1 | h2
          · exact absurd h1.symm hk
          · exact h2
        simp [bumpKey, hk, getCount, ih ht]

theorem getCount_bumpKey_ne (sc : List (String × Nat)) (c c' : String)
    (h : c ≠ c') : getCount (bumpKey sc c') c = getCount sc c := by
  induction sc with
  | nil => rfl
  | cons a t ih =>
      rcases a with ⟨k, v⟩
      by_cases hk : k = c'
      · subst hk
        have hne : k ≠ c := Ne.symm h
        simp [bumpKey, getCount, hne]
      · by_cases hkc : k = c <;> simp [bumpKey, hk, getCount, hkc, ih, h]

theorem getCount_processUrl (url : String) (c : String) :
    ∀ (cats : List (String × List String)) (sc : List (String × Nat)),
      (∀ p ∈ cats, p.1 ∈ keysOf sc) →
      getCount (processUrl sc cats url) c =
        getCount sc c +
          (cats.filter (fun p => decide (p.1 = c) && urlMatches p.2 url)).length := by
  intro cats
  induction cats with
  | nil =>
      intro sc _
      simp [processUrl]
  | cons a t ih =>
      intro sc hkeys
      rcases a with ⟨k, kws⟩
      have hstep : processUrl sc ((k, kws) :: t) url =
          processUrl (if urlMatches kws url then bumpKey sc k else sc) t url := by
        by_cases hm : urlMatches kws url <;> simp [processUrl, hm]
      rw [hstep]
      have hkeys' : ∀ p ∈ t,
          p.1 ∈ keysOf (if urlMatches kws url then bumpKey sc k else sc) := by
        intro p hp
        by_cases hm : urlMatches kws url <;>
          simp [hm, keysOf_bumpKey] <;>
          exact hkeys p (List.mem_cons_of_mem _ hp)
      rw [ih _ hkeys']
      by_cases hm : urlMatches kws url
      · rw [if_pos hm]
        by_cases hkc : k = c
        · subst hkc
          rw [getCount_bumpKey_self sc k (hkeys (k, kws) (List.mem_cons_self _ _))]
          simp [List.filter_cons, hm]
          omega
        · rw [getCount_bumpKey_ne sc c k (fun hq => hkc hq.symm)]
          simp [List.filter_cons, hm, hkc]
      · rw [if_neg hm]
        simp [List.filter_cons, hm]

theorem filter_key_none (cats : List (String × List String)) (c url : String)
    (h : c ∉ cats.map Prod.fst) :
    cats.filter (fun p => decide (p.1 = c) && urlMatches p.2 url) = [] := by
  induction cats with
  | nil => rfl
  | cons a t ih =>
      have hne : ¬(a.1 = c) := fun hq =>
        h (List.mem_map.mpr ⟨a, List.mem_cons_self _ _, hq⟩)
      have ht : c ∉ t.map Prod.fst := fun hq => h (by
        rw [List.map_cons]
        exact List.mem_cons_of_mem _ hq)
      simp [List.filter_cons, hne, ih ht]

theorem filter_key_single (cats : List (String × List String))
    (c url : String) (kws : List String)
    (hnd : (cats.map Prod.fst).Nodup) (hm : (c, kws) ∈ cats)
    (hmatch : urlMatches kws url = true) :
    (cats.filter (fun p => decide (p.1 = c) && urlMatches p.2 url)).length = 1 := by
  induction cats with
  | nil => cases hm
  | cons a t ih =>
      rw [List.map_cons] at hnd
      rcases List.mem_cons.mp hm with heq | hmem
      · have hrest : c ∉ t.map Prod.fst := by
          have := (List.nodup_cons.mp hnd).1
          rw [← heq] at this
          exact this
        rw [List.filter_cons]
        rw [← heq]
        simp [hmatch, filter_key_none t c url hrest]
      · have hane : ¬(a.1 = c) := by
          intro hq
          exact (List.nodup_cons.mp hnd).1
            (hq ▸ List.mem_map.mpr ⟨(c, kws), hmem, rfl⟩)
        simp [List.filter_cons, hane]
        exact ih (List.nodup_cons.mp hnd).2 hmem

/-- Claim C6: a record matching two categories' key sets increments both
categories' counters by exactly 1 (browser: one URL bumps every matching
category's counter in `determine_interests`; file: a record whose
extension lies in two categories' extension sets adds 1 to both categories'
counts in `determine_user_interests`); matching one category never
suppresses another. -/
theorem claim_C6 :
    (∀ (cats : List (String × List String)) (sc : List (String × Nat))
        (url c1 c2 : String) (kws1 kws2 : List String),
      (cats.map Prod.fst).Nodup → (∀ p ∈ cats, p.1 ∈ keysOf sc) →
      (c1, kws1) ∈ cats → (c2, kws2) ∈ cats → c1 ≠ c2 →
      urlMatches kws1 url = true → urlMatches kws2 url = true →
      getCount (processUrl sc cats url) c1 = getCount sc c1 + 1 ∧
        getCount (processUrl sc cats url) c2 = getCount sc c2 + 1) ∧
    (∀ (r : FileRec) (df : List FileRec) (exts1 exts2 : List String),
      r.ext ∈ exts1 → r.ext ∈ exts2 →
      extCount exts1 (r :: df) = extCount exts1 df + 1 ∧
        extCount exts2 (r :: df) = extCount exts2 df + 1) := by
  constructor
  · intro cats sc url c1 c2 kws1 kws2 hnd hkeys hm1 hm2 _ hmatch1 hmatch2
    constructor
    · rw [getCount_processUrl url c1 cats sc hkeys,
        filter_key_single cats c1 url kws1 hnd hm1 hmatch1]
    · rw [getCount_processUrl url c2 cats sc hkeys,
        filter_key_single cats c2 url kws2 hnd hm2 hmatch2]
  · intro r df exts1 exts2 h1 h2
    constructor <;> simp [extCount, List.filter_cons, h1, h2]

/-- Claim C6 witness: the URL `https://git.example/news` matches both the
`technology` keyword `git` and the `entertainment` keyword `news`, and one
`.py` record is counted once by two extension sets containing `.py`. -/
theorem claim_C6_witness :
    (getCount (processUrl
          (initScores [("technology", ["git"]), ("entertainment", ["news"])])
          [("technology", ["git"]), ("entertainment", ["news"])]
          "https://git.example/news") "technology" =
        getCount (initScores [("technology", ["git"]), ("entertainment", ["news"])])
          "technology" + 1 ∧
      getCount (processUrl
          (initScores [("technology", ["git"]), ("entertainment", ["news"])])
          [("technology", ["git"]), ("entertainment", ["news"])]
          "https://git.example/news") "entertainment" =
        getCount (initScores [("technology", ["git"]), ("entertainment", ["news"])])
          "entertainment" + 1) ∧
      (extCount [".py"] [⟨".py"⟩] = extCount [".py"] [] + 1 ∧
        extCount [".py", ".ipynb"] [⟨".py"⟩] = extCount [".py", ".ipynb"] [] + 1) :=
  ⟨claim_C6.1 [("technology", ["git"]), ("entertainment", ["news"])]
      (initScores [("technology", ["git"]), ("entertainment", ["news"])])
      "https://git.example/news" "technology" "entertainment" ["git"] ["news"]
      (by decide) (by decide) (by decide) (by decide) (by decide)
      (by decide) (by decide),
    claim_C6.2 ⟨".py"⟩ [] [".py"] [".py", ".ipynb"] (by decide) (by decide)⟩

/-- Claim C9: when the history source is unreachable (raises) or empty,
the collector returns the empty sequence rather than propagating a
failure (it is a total function into record lists), and the generated
profile is the explicit no-data marker. -/
theorem claim_C9 :
    ∀ (cats : List (String × List String)) (limit : Nat)
      (src : Except String (List HistoryRow)),
      ((∃ e, src = Except.error e) ∨ src = Except.ok []) →
      getBrowserTabs limit src = [] ∧
        generateUserProfile cats limit src =
          ProfileResult.err "No browser history available" := by
  intro cats limit src hsrc
  have htabs : getBrowserTabs limit src = [] := by
    rcases hsrc with ⟨e, rfl⟩ | rfl
    · rfl
    · rfl
  refine ⟨htabs, ?_⟩
  unfold generateUserProfile
  rw [htabs]
  rfl

/-- Claim C9 witness: an unreachable history store yields the empty
collection and the no-data profile. -/
theorem claim_C9_witness :
    getBrowserTabs 500 (Except.error "no browser history store found") = [] ∧
      generateUserProfile [] 500 (Except.error "no browser history store found") =
        ProfileResult.err "No browser history available" :=
  claim_C9 [] 500 (Except.error "no browser history store found")
    (Or.inl ⟨"no browser history store found", rfl⟩)

/-- Claim C8: with zero records collected from both sources, the combined
profile has an empty (hence all-zero) merged interest map and empty
primary-category lists for both sources; the combining functions are total,
so no division-by-zero failure can occur. -/
theorem claim_C8 :
    ∀ (cats : List (String × List String)) (limit : Nat)
      (src : Except String (List HistoryRow)),
      getBrowserTabs limit src = [] →
      combinedInsights cats limit src [] =
        ⟨[], [], []⟩ := by
  intro cats limit src htabs
  have hprof : generateUserProfile cats limit src =
      ProfileResult.err "No browser history available" := by
    unfold generateUserProfile
    rw [htabs]
    rfl
  unfold combinedInsights
  rw [hprof]
  rfl

/-- Claim C8 witness: an empty history and an empty scan produce the
all-empty combined insights. -/
theorem claim_C8_witness :
    combinedInsights [] 500 (Except.ok []) [] = ⟨[], [], []⟩ :=
  claim_C8 [] 500 (Except.ok []) rfl

theorem runBatch_mem (ok : FsPath → Bool) (limit : Nat) :
    ∀ (b acc : List FsPath) (count : Nat) (p : FsPath),
      p ∈ (runBatch ok limit b acc count).1 → p ∈ acc ∨ p ∈ b := by
  intro b
  induction b with
  | nil =>
      intro acc count p hp
      exact Or.inl (by simpa [runBatch] using hp)
  | cons q ps ih =>
      intro acc count p hp
      by_cases hok : ok q
      · simp [runBatch, hok] at hp
        by_cases hstop : limit ≤ count + 1
        · rw [if_pos hstop] at hp
          rcases List.mem_append.mp hp with h | h
          · exact Or.inl h
          · exact Or.inr (by
              rw [List.mem_singleton.mp h]
              exact List.mem_cons_self q ps)
        · rw [if_neg hstop] at hp
          rcases ih (acc ++ [q]) (count + 1) p hp with h | h
          · rcases List.mem_append.mp h with h1 | h1
            · exact Or.inl h1
            · exact Or.inr (by
                rw [List.mem_singleton.mp h1]
                exact List.mem_cons_self q ps)
          · exact Or.inr (List.mem_cons_of_mem _ h)
      · simp [runBatch, hok] at hp
        by_cases hstop : limit ≤ count
        · rw [if_pos hstop] at hp
          exact Or.inl hp
        · rw [if_neg hstop] at hp
          rcases ih acc count p hp with h | h
          · exact Or.inl h
          · exact Or.inr (List.mem_cons_of_mem _ h)

theorem runWalk_mem (ok : FsPath → Bool) (limit : Nat) :
    ∀ (bs : List (List FsPath)) (acc : List FsPath) (count : Nat) (p : FsPath),
      p ∈ (runWalk ok limit bs acc count).1 → p ∈ acc ∨ ∃ b ∈ bs, p ∈ b := by
  intro bs
  induction bs with
  | nil =>
      intro acc count p hp
      exact Or.inl (by simpa [runWalk] using hp)
  | cons b rest ih =>
      intro acc count p hp
      simp only [runWalk] at hp
      by_cases hstop : limit ≤ (runBatch ok limit b acc count).2
      · rw [if_pos hstop] at hp
        rcases runBatch_mem ok limit b acc count p hp with h | h
        · exact Or.inl h
        · exact Or.inr ⟨b, List.mem_cons_self _ _, h⟩
      · rw [if_neg hstop] at hp
        rcases ih (runBatch ok limit b acc count).1
            (runBatch ok limit b acc count).2 p hp with h | h
        · rcases runBatch_mem ok limit b acc count p h with h1 | h1
          · exact Or.inl h1
          · exact Or.inr ⟨b, List.mem_cons_self _ _, h1⟩
        · rcases h with ⟨b2, hb2, hpb⟩
          exact Or.inr ⟨b2, List.mem_cons_of_mem _ hb2, hpb⟩

theorem scanFold_mem (ok : FsPath → Bool) (ex : List String) (limit : Nat) :
    ∀ (roots : List (FsPath × List Entry)) (st : List FsPath × Nat) (p : FsPath),
      p ∈ (roots.foldl
          (fun st r => runWalk ok limit (walkRoot ex r) st.1 st.2) st).1 →
      p ∈ st.1 ∨ ∃ r ∈ roots, ∃ b ∈ walkRoot ex r, p ∈ b := by
  intro roots
  induction roots with
  | nil =>
      intro st p hp
      exact Or.inl (by simpa using hp)
  | cons r rest ih =>
      intro st p hp
      rw [List.foldl_cons] at hp
      rcases ih _ p hp with h | h
      · rcases runWalk_mem ok limit (walkRoot ex r) st.1 st.2 p h with h1 | h1
        · exact Or.inl h1
        · rcases h1 with ⟨b, hb, hpb⟩
          exact Or.inr ⟨r, List.mem_cons_self _ _, b, hb, hpb⟩
      · rcases h with ⟨r2, hr2, b, hb, hpb⟩
        exact Or.inr ⟨r2, List.mem_cons_of_mem _ hr2, b, hb, hpb⟩

theorem filesIn_mem (pref : FsPath) (ch : List Entry) (p : FsPath)
    (hp : p ∈ filesIn pref ch) : ∃ n, p = pref ++ [n] := by
  rcases List.mem_filterMap.mp hp with ⟨e, _, hsome⟩
  cases e with
  | file n => exact ⟨n, by simpa using hsome.symm⟩
  | dir n ch2 => simp at hsome

theorem walkList_mem (ex : List String) :
    ∀ (pref : FsPath) (es : List Entry) (b : List FsPath) (p : FsPath),
      b ∈ walkList ex pref es → p ∈ b →
      ∃ inner fn, p = pref ++ inner ++ [fn] ∧ inner ≠ [] ∧ ∀ d ∈ inner, d ∉ ex := by
  intro pref es
  induction pref, es using walkList.induct ex with
  | case1 pref =>
      intro b p hb _
      simp [walkList] at hb
  | case2 pref name es ih =>
      intro b p hb hp
      simp only [walkList] at hb
      exact ih b p hb hp
  | case3 pref n ch es ih1 ih2 =>
      intro b p hb hp
      simp only [walkList] at hb
      rcases List.mem_append.mp hb with h | h
      · by_cases hex : n ∈ ex
        · rw [if_pos hex] at h
          cases h
        · rw [if_neg hex] at h
          rcases List.mem_cons.mp h with hfb | hwb
          · subst hfb
            rcases filesIn_mem _ _ p hp with ⟨fn, hfn⟩
            refine ⟨[n], fn, ?_, by simp, ?_⟩
            · simpa [List.append_assoc] using hfn
            · intro d hd
              rw [List.mem_singleton.mp hd]
              exact hex
          · rcases ih1 b p hwb hp with ⟨inner, fn, hpe, _, hnin⟩
            refine ⟨n :: inner, fn, ?_, by simp, ?_⟩
            · rw [hpe]
              simp [List.append_assoc]
            · intro d hd
              rcases List.mem_cons.mp hd with rfl | hd2
              · exact hex
              · exact hnin d hd2
      · exact ih2 b p h hp

/-- Claim C5, counterexample to the claim as stated: exclusion prunes
*directories* only, so a plain file named like an excluded directory is
still collected, and its path contains the excluded name as a segment. -/
theorem claim_C5_counterexample :
    ["r", "tmp"] ∈
        scanFiles (fun _ => true) ["tmp"] 100 [(["r"], [Entry.file "tmp"])] ∧
      "tmp" ∈ ["r", "tmp"] ∧ "tmp" ∈ (["tmp"] : List String) := by
  refine ⟨?_, by simp, by simp⟩
  simp [scanFiles, walkRoot, walkList, filesIn, runWalk, runBatch]

/-- Claim C5 as amended: traversal never descends into an excluded
directory, so every collected record's path is the scan root's path
followed by intermediate directory segments none of which is excluded,
then the file name (the root's own segments and the file's own name may
still coincide with excluded names). -/
theorem claim_C5 :
    ∀ (ok : FsPath → Bool) (ex : List String) (limit : Nat)
      (roots : List (FsPath × List Entry)) (p : FsPath),
      p ∈ scanFiles ok ex limit roots →
      ∃ r ∈ roots, ∃ inner fn,
        p = r.1 ++ inner ++ [fn] ∧ ∀ d ∈ inner, d ∉ ex := by
  intro ok ex limit roots p hp
  unfold scanFiles at hp
  rcases scanFold_mem ok ex limit roots ([], 0) p hp with h | h
  · simp at h
  · rcases h with ⟨r, hr, b, hb, hpb⟩
    unfold walkRoot at hb
    rcases List.mem_cons.mp hb with hfb | hwb
    · subst hfb
      rcases filesIn_mem r.1 r.2 p hpb with ⟨fn, hfn⟩
      exact ⟨r, hr, [], fn, by simpa using hfn, by simp⟩
    · rcases walkList_mem ex r.1 r.2 b p hwb hpb with ⟨inner, fn, hpe, _, hnin⟩
      exact ⟨r, hr, inner, fn, hpe, hnin⟩

/-- Claim C5 witness: a concrete scan of one root containing one file,
with a non-trivial exclusion set. -/
theorem claim_C5_witness :
    (["home", "notes.txt"] ∈ scanFiles (fun _ => true) ["node_modules"] 10
        [(["home"], [Entry.file "notes.txt"])]) ∧
      (∃ r ∈ [(["home"], [Entry.file "notes.txt"])], ∃ inner fn,
        ["home", "notes.txt"] = r.1 ++ inner ++ [fn] ∧
          ∀ d ∈ inner, d ∉ ["node_modules"]) := by
  have hmem : ["home", "notes.txt"] ∈ scanFiles (fun _ => true) ["node_modules"] 10
      [(["home"], [Entry.file "notes.txt"])] := by
    simp [scanFiles, walkRoot, walkList, filesIn, runWalk, runBatch]
  exact ⟨hmem, claim_C5 (fun _ => true) ["node_modules"] 10
    [(["home"], [Entry.file "notes.txt"])] ["home", "notes.txt"] hmem⟩
